import Mathlib

/-!
Shallow embedding of the onediff graph-compilation cache and lifecycle
manager, and proofs about it.

Part 1 models the unet-graph LRU cache of
`OneFlowStableDiffusionPipeline` in
`src/diffusers/pipelines/stable_diffusion/pipeline_stable_diffusion_oneflow.py`:
`self.unet_graphs` is a Python dict from `(height, width)` to
`(lru_time, graph)`; insertion order of the dict is modelled by a list,
graph objects are modelled by numeric identities drawn from a fresh
counter (equal identity = the same Python object).
-/

/-- One entry of `self.unet_graphs`: dict key `(height, width)`, the
recency counter stored as the first tuple component, and the compiled
graph object (by identity). -/
structure UnetEntry where
  hw : Nat × Nat
  time : Nat
  graph : Nat
deriving DecidableEq, Repr

/-- The pipeline state touched by the unet-graph cache logic:
`self.unet_graphs` (as a list in dict insertion/iteration order),
`self.unet_graphs_cache_size`, `self.unet_graphs_lru_cache_time`, and a
fresh-identity counter for newly constructed graph objects. -/
structure PipeState where
  unetGraphs : List UnetEntry
  unetGraphsCacheSize : Nat
  unetGraphsLruCacheTime : Nat
  nextGraphId : Nat
deriving DecidableEq, Repr

/-- `__init__`: `self.unet_graphs = dict()`, `self.unet_graphs_cache_size = 1`,
`self.unet_graphs_lru_cache_time = 0`. -/
def initPipeState : PipeState :=
  { unetGraphs := [], unetGraphsCacheSize := 1,
    unetGraphsLruCacheTime := 0, nextGraphId := 0 }

/-- `set_unet_graphs_cache_size(cache_size)`: the method body is the single
assignment `self.unet_graphs_cache_size = cache_size`. -/
def set_unet_graphs_cache_size (s : PipeState) (cacheSize : Nat) : PipeState :=
  { s with unetGraphsCacheSize := cacheSize }

/-- Dict lookup `self.unet_graphs[height, width]` (keys are unique, the
first match is the entry). -/
def lookupEntry (l : List UnetEntry) (k : Nat × Nat) : Option UnetEntry :=
  l.find? (fun e => e.hw = k)

/-- Dict update `self.unet_graphs[height, width] = (time, graph)` on a key
already present: the value changes, the key keeps its position. -/
def updateTime (l : List UnetEntry) (k : Nat × Nat) (t : Nat) : List UnetEntry :=
  l.map (fun e => if e.hw = k then { e with time := t } else e)

/-- `min(self.unet_graphs.keys(), key=lambda shape: self.unet_graphs[shape][0])`:
Python `min` scans left to right and keeps the current best, replacing it
only on a strictly smaller key, so the first entry among those of minimal
recency time is returned; `none` on an empty dict (Python raises
`ValueError`). -/
def minByTime : List UnetEntry → Option UnetEntry
  | [] => none
  | e :: rest => some (rest.foldl (fun b x => if x.time < b.time then x else b) e)

/-- `del self.unet_graphs[shape_to_del]`. -/
def removeKey (l : List UnetEntry) (k : Nat × Nat) : List UnetEntry :=
  l.filter (fun e => ¬ e.hw = k)

theorem foldlMin_mem (l : List UnetEntry) (b : UnetEntry) :
    l.foldl (fun b x => if x.time < b.time then x else b) b = b ∨
    l.foldl (fun b x => if x.time < b.time then x else b) b ∈ l := by
  induction l generalizing b with
  | nil => exact Or.inl rfl
  | cons c cs ih =>
    simp only [List.foldl_cons]
    rcases ih (if c.time < b.time then c else b) with h | h
    · by_cases hc : c.time < b.time
      · right
        rw [h]
        simp [hc]
      · left
        rw [h]
        simp [hc]
    · right
      exact List.mem_cons.mpr (Or.inr h)

theorem minByTime_mem {l : List UnetEntry} {e : UnetEntry}
    (h : minByTime l = some e) : e ∈ l := by
  cases l with
  | nil => simp [minByTime] at h
  | cons a rest =>
    simp only [minByTime, Option.some.injEq] at h
    subst h
    rcases foldlMin_mem rest a with h | h
    · rw [h]
      exact List.mem_cons_self _ _
    · exact List.mem_cons.mpr (Or.inr h)

theorem removeKey_length_lt {l : List UnetEntry} {e : UnetEntry}
    (h : e ∈ l) : (removeKey l e.hw).length < l.length := by
  unfold removeKey
  rw [List.length_filter_lt_length_iff_exists]
  exact ⟨e, h, by simp⟩

/-- Observable events of one pipeline call, used to state ordering
properties: constructing and tracing a fresh graph
(`UNetGraph(self.unet)` plus `unet_graph._compile(...)`), the warmup run
(`unet_graph(...)  # warmup`), and the dict insertion
(`self.unet_graphs[height, width] = (time, graph)`). -/
inductive Ev where
  | compile (g : Nat)
  | warmup (g : Nat)
  | insert (g : Nat)
deriving DecidableEq, Repr

/-- The eviction loop of `__call__`, with explicit fuel (each iteration
deletes one entry, so the entry count at loop entry bounds the number of
iterations; the fuel-exhausted arm is unreachable from `evictLoop`):
`while len(self.unet_graphs) >= self.unet_graphs_cache_size:`
`    shape_to_del = min(self.unet_graphs.keys(), key=...)`
`    del self.unet_graphs[shape_to_del]`.
Returns `none` when Python would raise (`min` over an empty dict, which
happens exactly when the configured cache size is 0). -/
def evictLoopF (fuel : Nat) (l : List UnetEntry) (cap : Nat) :
    Option (List UnetEntry) :=
  if cap ≤ l.length then
    match minByTime l with
    | none => none
    | some e =>
        match fuel with
        | 0 => none
        | fuel' + 1 => evictLoopF fuel' (removeKey l e.hw) cap
  else
    some l

/-- The eviction loop of `__call__`, started with sufficient fuel. -/
def evictLoop (l : List UnetEntry) (cap : Nat) : Option (List UnetEntry) :=
  evictLoopF l.length l cap

/-- The unet-graph cache logic of `OneFlowStableDiffusionPipeline.__call__`
with `compile_unet=True` (the branch at lines 384-418 of
`pipeline_stable_diffusion_oneflow.py`).  `h`/`w` are the `height`/`width`
arguments; `batch` and `condLen` model the batch size (derived from the
prompt list) and the conditioning-tensor length, which the source never
consults when forming the dict key `(height, width)`.
On a hit the stored graph is returned and its recency refreshed; on a
miss the eviction loop runs, then a fresh graph is compiled, warmed up
and inserted.  Returns the new state, the graph object serving the call
(by identity) and the event trace of the call; `none` when the eviction
loop raises. -/
def pipeline_call (s : PipeState) (h w batch condLen : Nat) :
    Option (PipeState × Nat × List Ev) :=
  let t := s.unetGraphsLruCacheTime + 1
  match lookupEntry s.unetGraphs (h, w) with
  | some e =>
      some ({ s with unetGraphsLruCacheTime := t,
                     unetGraphs := updateTime s.unetGraphs (h, w) t },
            e.graph, [])
  | none =>
      match evictLoop s.unetGraphs s.unetGraphsCacheSize with
      | none => none
      | some l' =>
          let g := s.nextGraphId
          some ({ unetGraphs := l' ++ [⟨(h, w), t, g⟩],
                  unetGraphsCacheSize := s.unetGraphsCacheSize,
                  unetGraphsLruCacheTime := t,
                  nextGraphId := g + 1 },
                g, [Ev.compile g, Ev.warmup g, Ev.insert g])

/-- Arguments of one pipeline call that the cache logic can observe. -/
structure CallArgs where
  height : Nat
  width : Nat
  batch : Nat
  condLen : Nat
deriving DecidableEq, Repr

/-- Running a sequence of pipeline calls, collecting for each call the
graph that served it and its event trace. -/
def runCalls : PipeState → List CallArgs → Option (PipeState × List (Nat × List Ev))
  | s, [] => some (s, [])
  | s, a :: rest =>
      match pipeline_call s a.height a.width a.batch a.condLen with
      | none => none
      | some (s', g, tr) =>
          match runCalls s' rest with
          | none => none
          | some (s'', out) => some (s'', (g, tr) :: out)

theorem lookupEntry_eq_none_iff {l : List UnetEntry} {k : Nat × Nat} :
    lookupEntry l k = none ↔ ∀ e ∈ l, e.hw ≠ k := by
  unfold lookupEntry
  simp [List.find?_eq_none]

theorem lookupEntry_mem {l : List UnetEntry} {k : Nat × Nat} {e : UnetEntry}
    (h : lookupEntry l k = some e) : e ∈ l ∧ e.hw = k := by
  unfold lookupEntry at h
  exact ⟨List.mem_of_find?_eq_some h, by simpa using List.find?_some h⟩

theorem lookupEntry_updateTime_self {l : List UnetEntry} {k : Nat × Nat} {t : Nat}
    {e : UnetEntry} (h : lookupEntry l k = some e) :
    lookupEntry (updateTime l k t) k = some { e with time := t } := by
  induction l with
  | nil => simp [lookupEntry] at h
  | cons a rest ih =>
    by_cases ha : a.hw = k
    · unfold lookupEntry at h
      rw [List.find?_cons_of_pos _ (by simpa using ha)] at h
      cases h
      unfold updateTime lookupEntry
      simp only [List.map_cons, ha, if_pos]
      rw [List.find?_cons_of_pos _ (by simpa using ha)]
    · unfold lookupEntry at h
      rw [List.find?_cons_of_neg _ (by simpa using ha)] at h
      have := ih h
      unfold updateTime lookupEntry at this ⊢
      simp only [List.map_cons, ha, if_neg, ite_false]
      rw [List.find?_cons_of_neg _ (by simpa using ha)]
      exact this

theorem minByTime_isSome {l : List UnetEntry} (h : l ≠ []) :
    (minByTime l).isSome := by
  cases l with
  | nil => exact absurd rfl h
  | cons a rest => simp [minByTime]

theorem minByTime_eq_none {l : List UnetEntry} (h : minByTime l = none) :
    l = [] := by
  cases l with
  | nil => rfl
  | cons a rest => simp [minByTime] at h

theorem evictLoopF_sublist :
    ∀ (fuel : Nat) (l : List UnetEntry) (cap : Nat) (l' : List UnetEntry),
      evictLoopF fuel l cap = some l' → l'.Sublist l := by
  intro fuel
  induction fuel with
  | zero =>
    intro l cap l' h
    rw [evictLoopF] at h
    split at h
    · split at h
      · exact absurd h (by simp)
      · simp at h
    · cases h
      exact List.Sublist.refl _
  | succ f ih =>
    intro l cap l' h
    rw [evictLoopF] at h
    split at h
    · split at h
      · exact absurd h (by simp)
      · exact (ih _ cap l' h).trans (List.filter_sublist l)
    · cases h
      exact List.Sublist.refl _

theorem evictLoop_sublist {l : List UnetEntry} {cap : Nat} {l' : List UnetEntry}
    (h : evictLoop l cap = some l') : l'.Sublist l :=
  evictLoopF_sublist l.length l cap l' h

theorem evictLoopF_length :
    ∀ (fuel : Nat) (l : List UnetEntry) (cap : Nat) (l' : List UnetEntry),
      evictLoopF fuel l cap = some l' → l'.length < cap := by
  intro fuel
  induction fuel with
  | zero =>
    intro l cap l' h
    rw [evictLoopF] at h
    split at h
    · split at h
      · exact absurd h (by simp)
      · simp at h
    · next hc =>
      cases h
      exact Nat.lt_of_not_le hc
  | succ f ih =>
    intro l cap l' h
    rw [evictLoopF] at h
    split at h
    · split at h
      · exact absurd h (by simp)
      · exact ih _ cap l' h
    · next hc =>
      cases h
      exact Nat.lt_of_not_le hc

theorem evictLoop_length {l : List UnetEntry} {cap : Nat} {l' : List UnetEntry}
    (h : evictLoop l cap = some l') : l'.length < cap :=
  evictLoopF_length l.length l cap l' h

theorem evictLoopF_isSome :
    ∀ (fuel : Nat) (l : List UnetEntry) (cap : Nat),
      1 ≤ cap → l.length ≤ fuel → (evictLoopF fuel l cap).isSome := by
  intro fuel
  induction fuel with
  | zero =>
    intro l cap hcap hlen
    have hl : l = [] := List.length_eq_zero.mp (Nat.le_zero.mp hlen)
    subst hl
    rw [evictLoopF, if_neg]
    · rfl
    · simp only [List.length_nil, Nat.le_zero]
      omega
  | succ f ih =>
    intro l cap hcap hlen
    rw [evictLoopF]
    split
    · next hc =>
      cases hmin : minByTime l with
      | none =>
        have hl := minByTime_eq_none hmin
        subst hl
        simp at hc
        omega
      | some e =>
        show (evictLoopF f (removeKey l e.hw) cap).isSome
        have hmem := minByTime_mem hmin
        have hlt := removeKey_length_lt hmem
        exact ih (removeKey l e.hw) cap hcap (by omega)
    · rfl

theorem evictLoop_isSome {l : List UnetEntry} {cap : Nat} (hcap : 1 ≤ cap) :
    (evictLoop l cap).isSome :=
  evictLoopF_isSome l.length l cap hcap le_rfl

theorem evictLoopF_congr :
    ∀ (f1 f2 : Nat) (l : List UnetEntry) (cap : Nat),
      l.length ≤ f1 → l.length ≤ f2 → evictLoopF f1 l cap = evictLoopF f2 l cap := by
  intro f1
  induction f1 with
  | zero =>
    intro f2 l cap h1 h2
    have hl : l = [] := List.length_eq_zero.mp (Nat.le_zero.mp h1)
    subst hl
    rw [evictLoopF, evictLoopF]
    simp [minByTime]
  | succ f ih =>
    intro f2 l cap h1 h2
    rw [evictLoopF, evictLoopF]
    by_cases hc : cap ≤ l.length
    · rw [if_pos hc, if_pos hc]
      cases hmin : minByTime l with
      | none => rfl
      | some e =>
        have hmem := minByTime_mem hmin
        have hpos : 1 ≤ l.length := List.length_pos.mpr (List.ne_nil_of_mem hmem)
        obtain ⟨f2m, rfl⟩ : ∃ f2m, f2 = f2m + 1 := ⟨f2 - 1, by omega⟩
        show evictLoopF f (removeKey l e.hw) cap = evictLoopF f2m (removeKey l e.hw) cap
        have hlt := removeKey_length_lt hmem
        exact ih f2m _ cap (by omega) (by omega)
    · rw [if_neg hc, if_neg hc]

/-- One iteration of the eviction loop removes the `min`-selected entry. -/
theorem evictLoop_step {l : List UnetEntry} {cap : Nat} {e : UnetEntry}
    (hle : cap ≤ l.length) (hmin : minByTime l = some e) :
    evictLoop l cap = evictLoop (removeKey l e.hw) cap := by
  unfold evictLoop
  have hmem := minByTime_mem hmin
  have hpos : 1 ≤ l.length := List.length_pos.mpr (List.ne_nil_of_mem hmem)
  obtain ⟨n, hn⟩ : ∃ n, l.length = n + 1 := ⟨l.length - 1, by omega⟩
  rw [hn, evictLoopF, if_pos hle, hmin]
  show evictLoopF n (removeKey l e.hw) cap =
    evictLoopF (removeKey l e.hw).length (removeKey l e.hw) cap
  have hlt := removeKey_length_lt hmem
  exact evictLoopF_congr n _ _ cap (by omega) (by omega)

/-- A cache strictly below capacity is not touched by the eviction loop. -/
theorem evictLoop_of_lt {l : List UnetEntry} {cap : Nat} (h : l.length < cap) :
    evictLoop l cap = some l := by
  unfold evictLoop
  rw [evictLoopF, if_neg (by omega)]

theorem pipeline_call_hit {s : PipeState} {h w batch condLen : Nat} {e : UnetEntry}
    (he : lookupEntry s.unetGraphs (h, w) = some e) :
    pipeline_call s h w batch condLen =
      some ({ s with unetGraphsLruCacheTime := s.unetGraphsLruCacheTime + 1,
                     unetGraphs := updateTime s.unetGraphs (h, w)
                        (s.unetGraphsLruCacheTime + 1) },
            e.graph, []) := by
  unfold pipeline_call
  rw [he]

theorem pipeline_call_miss {s : PipeState} {h w batch condLen : Nat}
    (hn : lookupEntry s.unetGraphs (h, w) = none)
    {l' : List UnetEntry}
    (hev : evictLoop s.unetGraphs s.unetGraphsCacheSize = some l') :
    pipeline_call s h w batch condLen =
      some ({ unetGraphs := l' ++ [⟨(h, w), s.unetGraphsLruCacheTime + 1, s.nextGraphId⟩],
              unetGraphsCacheSize := s.unetGraphsCacheSize,
              unetGraphsLruCacheTime := s.unetGraphsLruCacheTime + 1,
              nextGraphId := s.nextGraphId + 1 },
            s.nextGraphId,
            [Ev.compile s.nextGraphId, Ev.warmup s.nextGraphId, Ev.insert s.nextGraphId]) := by
  unfold pipeline_call
  rw [hn, hev]

theorem lookupEntry_append_of_none {l : List UnetEntry} {k : Nat × Nat}
    (hn : lookupEntry l k = none) (e : UnetEntry) :
    lookupEntry (l ++ [e]) k = lookupEntry [e] k := by
  unfold lookupEntry at *
  induction l with
  | nil => rfl
  | cons a rest ih =>
    rw [List.find?_cons] at hn
    by_cases ha : a.hw = k
    · simp [ha] at hn
    · rw [List.cons_append, List.find?_cons]
      simp only [ha, decide_False] at hn ⊢
      exact ih hn

/-- After a miss with the key absent from the post-eviction list, the
fresh entry is found at its key. -/
theorem lookupEntry_insert_self {l : List UnetEntry} {k : Nat × Nat}
    (hn : lookupEntry l k = none) (t g : Nat) :
    lookupEntry (l ++ [⟨k, t, g⟩]) k = some ⟨k, t, g⟩ := by
  rw [lookupEntry_append_of_none hn]
  unfold lookupEntry
  rw [List.find?_cons_of_pos _ (by simp)]

/-- Number of compiler invocations recorded in one call trace. -/
def compileCount (tr : List Ev) : Nat :=
  (tr.filter fun e => match e with | Ev.compile _ => true | _ => false).length

/-- Total compiler invocations over the results of a call sequence. -/
def totalCompiles (out : List (Nat × List Ev)) : Nat :=
  (out.map fun r => compileCount r.2).sum

/-- Helper: if the key is already cached with graph `g`, a sequence of
calls that all use that key performs no compilation at all and serves
every call with `g` itself. -/
theorem runCalls_same_key_of_hit :
    ∀ (args : List CallArgs) (s : PipeState) (h w g : Nat),
      (∀ a ∈ args, a.height = h ∧ a.width = w) →
      (∃ e, lookupEntry s.unetGraphs (h, w) = some e ∧ e.graph = g) →
      ∃ s', runCalls s args = some (s', args.map fun _ => (g, [])) := by
  intro args
  induction args with
  | nil =>
    intro s h w g _ _
    exact ⟨s, rfl⟩
  | cons a rest ih =>
    intro s h w g hkey he
    obtain ⟨e, he, hg⟩ := he
    obtain ⟨hah, haw⟩ := hkey a (List.mem_cons_self _ _)
    have hcall := @pipeline_call_hit s h w a.batch a.condLen e he
    have hlook2 := @lookupEntry_updateTime_self s.unetGraphs (h, w)
      (s.unetGraphsLruCacheTime + 1) e he
    obtain ⟨s', hrest⟩ := ih
      ({ s with unetGraphsLruCacheTime := s.unetGraphsLruCacheTime + 1,
                unetGraphs := updateTime s.unetGraphs (h, w)
                  (s.unetGraphsLruCacheTime + 1) })
      h w g (fun b hb => hkey b (List.mem_cons_of_mem _ hb))
      ⟨{ e with time := s.unetGraphsLruCacheTime + 1 }, hlook2, hg⟩
    refine ⟨s', ?_⟩
    unfold runCalls
    rw [hah, haw, hcall]
    simp only
    rw [hrest, hg]
    simp

theorem totalCompiles_const_nil (g : Nat) (n : List CallArgs) :
    totalCompiles (n.map fun _ => (g, ([] : List Ev))) = 0 := by
  induction n with
  | nil => rfl
  | cons b bs ih =>
    simp only [List.map_cons, totalCompiles, List.sum_cons] at ih ⊢
    simpa [compileCount] using ih

theorem lookupEntry_none_of_sublist {l l' : List UnetEntry} {k : Nat × Nat}
    (hsub : l'.Sublist l) (hn : lookupEntry l k = none) :
    lookupEntry l' k = none := by
  rw [lookupEntry_eq_none_iff] at hn ⊢
  exact fun e he => hn e (hsub.mem he)

/-- C1: for every sequence of pipeline calls that all resolve to the same
cache key `(height, width)` (started from any state whose configured
cache size is at least 1), the underlying compiler runs at most once, and
only during the first call of the sequence; every call of the sequence is
served by one and the same graph object. -/
theorem same_key_compiles_at_most_once
    (s : PipeState) (args : List CallArgs) (h w : Nat)
    (hcap : 1 ≤ s.unetGraphsCacheSize)
    (hkey : ∀ a ∈ args, a.height = h ∧ a.width = w) :
    ∃ s' out, runCalls s args = some (s', out) ∧
      totalCompiles out ≤ 1 ∧
      (∀ r ∈ out.tail, compileCount r.2 = 0) ∧
      ∀ r1 ∈ out, ∀ r2 ∈ out, r1.1 = r2.1 := by
  cases args with
  | nil => exact ⟨s, [], rfl, by simp [totalCompiles], by simp, by simp⟩
  | cons a rest =>
    obtain ⟨hah, haw⟩ := hkey a (List.mem_cons_self _ _)
    cases he : lookupEntry s.unetGraphs (h, w) with
    | some e =>
      have hcall := @pipeline_call_hit s h w a.batch a.condLen e he
      have hlook2 := @lookupEntry_updateTime_self s.unetGraphs (h, w)
        (s.unetGraphsLruCacheTime + 1) e he
      obtain ⟨s', hrest⟩ := runCalls_same_key_of_hit rest
        ({ s with unetGraphsLruCacheTime := s.unetGraphsLruCacheTime + 1,
                  unetGraphs := updateTime s.unetGraphs (h, w)
                    (s.unetGraphsLruCacheTime + 1) })
        h w e.graph (fun b hb => hkey b (List.mem_cons_of_mem _ hb))
        ⟨{ e with time := s.unetGraphsLruCacheTime + 1 }, hlook2, rfl⟩
      refine ⟨s', (e.graph, []) :: rest.map (fun _ => (e.graph, [])), ?_, ?_, ?_, ?_⟩
      · unfold runCalls
        rw [hah, haw, hcall]
        simp only
        rw [hrest]
      · have := totalCompiles_const_nil e.graph rest
        simp only [totalCompiles, List.map_cons, List.sum_cons] at this ⊢
        simp [compileCount, this]
      · intro r hr
        simp only [List.tail_cons, List.mem_map] at hr
        obtain ⟨_, _, hr⟩ := hr
        subst hr
        rfl
      · intro r1 hr1 r2 hr2
        have hall : ∀ r ∈ (e.graph, ([] : List Ev)) :: rest.map (fun _ => (e.graph, [])),
            r.1 = e.graph := by
          intro r hr
          rcases List.mem_cons.mp hr with h1 | h1
          · rw [h1]
          · obtain ⟨_, _, h2⟩ := List.mem_map.mp h1
            rw [← h2]
        rw [hall r1 hr1, hall r2 hr2]
    | none =>
      have hev : (evictLoop s.unetGraphs s.unetGraphsCacheSize).isSome :=
        evictLoop_isSome hcap
      match hevl : evictLoop s.unetGraphs s.unetGraphsCacheSize with
      | none => rw [hevl] at hev; simp at hev
      | some l' =>
        have hcall := @pipeline_call_miss s h w a.batch a.condLen he l' hevl
        have hn' : lookupEntry l' (h, w) = none :=
          lookupEntry_none_of_sublist (evictLoop_sublist hevl) he
        have hlook2 := lookupEntry_insert_self hn' (s.unetGraphsLruCacheTime + 1)
          s.nextGraphId
        obtain ⟨s', hrest⟩ := runCalls_same_key_of_hit rest
          ({ unetGraphs := l' ++ [⟨(h, w), s.unetGraphsLruCacheTime + 1, s.nextGraphId⟩],
             unetGraphsCacheSize := s.unetGraphsCacheSize,
             unetGraphsLruCacheTime := s.unetGraphsLruCacheTime + 1,
             nextGraphId := s.nextGraphId + 1 })
          h w s.nextGraphId (fun b hb => hkey b (List.mem_cons_of_mem _ hb))
          ⟨⟨(h, w), s.unetGraphsLruCacheTime + 1, s.nextGraphId⟩, hlook2, rfl⟩
        refine ⟨s', (s.nextGraphId,
            [Ev.compile s.nextGraphId, Ev.warmup s.nextGraphId, Ev.insert s.nextGraphId]) ::
            rest.map (fun _ => (s.nextGraphId, [])), ?_, ?_, ?_, ?_⟩
        · unfold runCalls
          rw [hah, haw, hcall]
          simp only
          rw [hrest]
        · have := totalCompiles_const_nil s.nextGraphId rest
          simp only [totalCompiles, List.map_cons, List.sum_cons] at this ⊢
          simp [compileCount, this]
        · intro r hr
          simp only [List.tail_cons, List.mem_map] at hr
          obtain ⟨_, _, hr⟩ := hr
          subst hr
          rfl
        · intro r1 hr1 r2 hr2
          have hall : ∀ r ∈ (s.nextGraphId,
              [Ev.compile s.nextGraphId, Ev.warmup s.nextGraphId,
               Ev.insert s.nextGraphId]) :: rest.map (fun _ => (s.nextGraphId, ([] : List Ev))),
              r.1 = s.nextGraphId := by
            intro r hr
            rcases List.mem_cons.mp hr with h1 | h1
            · rw [h1]
            · obtain ⟨_, _, h2⟩ := List.mem_map.mp h1
              rw [← h2]
          rw [hall r1 hr1, hall r2 hr2]

/-- Witness for `same_key_compiles_at_most_once` at a concrete input:
three calls at height 512, width 512 from the freshly initialized
pipeline. -/
theorem same_key_compiles_at_most_once_witness :
    ∃ s' out, runCalls initPipeState
        [⟨512, 512, 1, 77⟩, ⟨512, 512, 2, 77⟩, ⟨512, 512, 1, 77⟩] = some (s', out) ∧
      totalCompiles out ≤ 1 ∧
      (∀ r ∈ out.tail, compileCount r.2 = 0) ∧
      ∀ r1 ∈ out, ∀ r2 ∈ out, r1.1 = r2.1 :=
  same_key_compiles_at_most_once initPipeState
    [⟨512, 512, 1, 77⟩, ⟨512, 512, 2, 77⟩, ⟨512, 512, 1, 77⟩] 512 512
    (by decide) (by decide)

theorem runCalls_append (s : PipeState) (l1 l2 : List CallArgs) :
    runCalls s (l1 ++ l2) =
      match runCalls s l1 with
      | none => none
      | some (s', out1) =>
          match runCalls s' l2 with
          | none => none
          | some (s'', out2) => some (s'', out1 ++ out2) := by
  induction l1 generalizing s with
  | nil =>
    simp only [List.nil_append, runCalls]
    cases runCalls s l2 with
    | none => rfl
    | some r => rfl
  | cons a rest ih =>
    simp only [List.cons_append, runCalls]
    cases pipeline_call s a.height a.width a.batch a.condLen with
    | none => rfl
    | some r =>
      obtain ⟨s', g, tr⟩ := r
      simp only
      have hconv : (rest.append l2) = rest ++ l2 := rfl
      rw [hconv, ih s']
      cases runCalls s' rest with
      | none => rfl
      | some r1 =>
        obtain ⟨s1, out1⟩ := r1
        simp only
        cases runCalls s1 l2 with
        | none => rfl
        | some r2 => rfl

theorem foldlMin_le (l : List UnetEntry) (b : UnetEntry) :
    (l.foldl (fun b x => if x.time < b.time then x else b) b).time ≤ b.time ∧
    ∀ x ∈ l, (l.foldl (fun b x => if x.time < b.time then x else b) b).time ≤ x.time := by
  induction l generalizing b with
  | nil => exact ⟨le_rfl, by simp⟩
  | cons c cs ih =>
    simp only [List.foldl_cons]
    by_cases hc : c.time < b.time
    · simp only [hc, if_pos]
      obtain ⟨h1, h2⟩ := ih c
      refine ⟨h1.trans (Nat.le_of_lt hc), ?_⟩
      intro x hx
      rcases List.mem_cons.mp hx with h | h
      · subst h
        exact h1
      · exact h2 x h
    · simp only [hc, ite_false]
      obtain ⟨h1, h2⟩ := ih b
      refine ⟨h1, ?_⟩
      intro x hx
      rcases List.mem_cons.mp hx with h | h
      · subst h
        exact h1.trans (Nat.le_of_not_lt hc)
      · exact h2 x h

theorem foldlMin_first (l : List UnetEntry) (b : UnetEntry) :
    l.foldl (fun b x => if x.time < b.time then x else b) b = b ∨
    (∃ l1 l2, l = l1 ++ (l.foldl (fun b x => if x.time < b.time then x else b) b) :: l2 ∧
      (l.foldl (fun b x => if x.time < b.time then x else b) b).time < b.time ∧
      ∀ x ∈ l1, (l.foldl (fun b x => if x.time < b.time then x else b) b).time < x.time) := by
  induction l generalizing b with
  | nil => exact Or.inl rfl
  | cons c cs ih =>
    simp only [List.foldl_cons]
    by_cases hc : c.time < b.time
    · simp only [hc, if_pos]
      rcases ih c with h | h
      · right
        rw [h]
        exact ⟨[], cs, by simp, hc, by simp⟩
      · obtain ⟨l1, l2, hsplit, hlt, hall⟩ := h
        right
        refine ⟨c :: l1, l2, by rw [List.cons_append, ← hsplit], hlt.trans hc, ?_⟩
        intro x hx
        rcases List.mem_cons.mp hx with hh | hh
        · subst hh
          exact hlt
        · exact hall x hh
    · simp only [hc, ite_false]
      rcases ih b with h | h
      · exact Or.inl h
      · obtain ⟨l1, l2, hsplit, hlt, hall⟩ := h
        right
        refine ⟨c :: l1, l2, by rw [List.cons_append, ← hsplit], hlt, ?_⟩
        intro x hx
        rcases List.mem_cons.mp hx with hh | hh
        · subst hh
          exact hlt.trans_le (Nat.le_of_not_lt hc)
        · exact hall x hh

/-- The eviction victim chosen by
`min(self.unet_graphs.keys(), key=lambda shape: self.unet_graphs[shape][0])`
has the smallest recency counter among current entries, and among the
entries achieving that minimum it is the earliest-inserted one (every
entry stored before it in the dict has a strictly larger counter). -/
theorem minByTime_spec {l : List UnetEntry} {e : UnetEntry}
    (h : minByTime l = some e) :
    (∀ x ∈ l, e.time ≤ x.time) ∧
    ∃ l1 l2, l = l1 ++ e :: l2 ∧ ∀ x ∈ l1, e.time < x.time := by
  cases l with
  | nil => simp [minByTime] at h
  | cons a rest =>
    simp only [minByTime, Option.some.injEq] at h
    subst h
    obtain ⟨h1, h2⟩ := foldlMin_le rest a
    constructor
    · intro x hx
      rcases List.mem_cons.mp hx with hh | hh
      · subst hh
        exact h1
      · exact h2 x hh
    · rcases foldlMin_first rest a with hf | hf
      · exact ⟨[], rest, by simp [hf], by simp⟩
      · obtain ⟨l1, l2, hsplit, hlt, hall⟩ := hf
        refine ⟨a :: l1, l2, by rw [List.cons_append, ← hsplit], ?_⟩
        intro x hx
        rcases List.mem_cons.mp hx with hh | hh
        · subst hh
          exact hlt
        · exact hall x hh

theorem foldlMin_of_not_lt {l : List UnetEntry} {b : UnetEntry}
    (h : ∀ x ∈ l, ¬ x.time < b.time) :
    l.foldl (fun b x => if x.time < b.time then x else b) b = b := by
  induction l with
  | nil => rfl
  | cons c cs ih =>
    simp only [List.foldl_cons, h c (List.mem_cons_self _ _), ite_false]
    exact ih fun x hx => h x (List.mem_cons_of_mem _ hx)

/-- `k` pipeline calls using shapes `sh 0, sh 1, ...` in order, each a
distinct `(height, width)` key, at a fixed batch size and conditioning
length. -/
def distinctArgs (sh : Nat → Nat × Nat) (b c k : Nat) : List CallArgs :=
  (List.range k).map fun i => ⟨(sh i).1, (sh i).2, b, c⟩

/-- The cache contents after the first `k` of those calls populate an
initially empty cache: entry `i` holds shape `sh i`, recency counter
`i + 1` and graph identity `i`, in insertion order. -/
def fillEntries (sh : Nat → Nat × Nat) (k : Nat) : List UnetEntry :=
  (List.range k).map fun i => ⟨sh i, i + 1, i⟩

theorem fillEntries_length (sh : Nat → Nat × Nat) (k : Nat) :
    (fillEntries sh k).length = k := by
  simp [fillEntries]

theorem lookupEntry_fillEntries_none {sh : Nat → Nat × Nat} {N k j : Nat}
    (hinj : ∀ i i', i ≤ N → i' ≤ N → sh i = sh i' → i = i')
    (hk : k ≤ j) (hj : j ≤ N) :
    lookupEntry (fillEntries sh k) (sh j) = none := by
  rw [lookupEntry_eq_none_iff]
  intro e he
  unfold fillEntries at he
  obtain ⟨i, hi, rfl⟩ := List.mem_map.mp he
  have hik : i < k := List.mem_range.mp hi
  intro heq
  have := hinj i j (by omega) hj heq
  omega

theorem runCalls_distinct_fill (sh : Nat → Nat × Nat) (b c N : Nat)
    (hinj : ∀ i j, i ≤ N → j ≤ N → sh i = sh j → i = j) :
    ∀ k, k ≤ N →
    ∃ out, runCalls (set_unet_graphs_cache_size initPipeState N)
        (distinctArgs sh b c k) =
      some ({ unetGraphs := fillEntries sh k, unetGraphsCacheSize := N,
              unetGraphsLruCacheTime := k, nextGraphId := k }, out) := by
  intro k
  induction k with
  | zero => exact fun _ => ⟨[], rfl⟩
  | succ k ih =>
    intro hk1
    have hk : k ≤ N := Nat.le_of_succ_le hk1
    obtain ⟨out, hout⟩ := ih hk
    have hargs : distinctArgs sh b c (k + 1) =
        distinctArgs sh b c k ++ [⟨(sh k).1, (sh k).2, b, c⟩] := by
      unfold distinctArgs
      rw [List.range_succ, List.map_append]
      rfl
    rw [hargs, runCalls_append, hout]
    have hlook : lookupEntry (fillEntries sh k) (sh k) = none :=
      lookupEntry_fillEntries_none hinj le_rfl hk
    have hev : evictLoop (fillEntries sh k) N = some (fillEntries sh k) := by
      apply evictLoop_of_lt
      rw [fillEntries_length]
      omega
    have hstate : ∀ x : PipeState,
        x = { unetGraphs := fillEntries sh k, unetGraphsCacheSize := N,
              unetGraphsLruCacheTime := k, nextGraphId := k } →
        pipeline_call x (sh k).1 (sh k).2 b c =
        some ({ unetGraphs := fillEntries sh k ++ [⟨sh k, k + 1, k⟩],
                unetGraphsCacheSize := N,
                unetGraphsLruCacheTime := k + 1,
                nextGraphId := k + 1 },
              k, [Ev.compile k, Ev.warmup k, Ev.insert k]) := by
      intro x hx
      subst hx
      exact pipeline_call_miss hlook hev
    have hfill : fillEntries sh k ++ [⟨sh k, k + 1, k⟩] = fillEntries sh (k + 1) := by
      unfold fillEntries
      rw [List.range_succ, List.map_append]
      rfl
    refine ⟨out ++ [(k, [Ev.compile k, Ev.warmup k, Ev.insert k])], ?_⟩
    simp only [runCalls]
    rw [hstate _ rfl]
    simp only [runCalls, hfill]

theorem fillEntries_succ_decomp (sh : Nat → Nat × Nat) (M : Nat) :
    fillEntries sh (M + 1) =
      ⟨sh 0, 1, 0⟩ :: (List.range M).map (fun i => ⟨sh (i + 1), i + 2, i + 1⟩) := by
  unfold fillEntries
  rw [List.range_succ_eq_map, List.map_cons, List.map_map]
  rfl

/-- C2: starting from the freshly initialized pipeline whose cache
capacity is set to `N ≥ 1`, requesting `N + 1` pairwise-distinct shape
signatures `sh 0, ..., sh N` in increasing recency order makes the final
request evict exactly the entry that `min` selects — the one with the
smallest recency counter — while every other entry and the new one
remain; moreover the `min`-selected victim always has the smallest
recency counter among current entries, ties broken in favour of the
earliest-inserted entry. -/
theorem lru_evicts_smallest_recency
    (N : Nat) (hN : 1 ≤ N) (sh : Nat → Nat × Nat) (b c : Nat)
    (hinj : ∀ i j, i ≤ N → j ≤ N → sh i = sh j → i = j) :
    (∃ sFill out1 e0 sFinal g tr,
      runCalls (set_unet_graphs_cache_size initPipeState N)
        (distinctArgs sh b c N) = some (sFill, out1) ∧
      sFill.unetGraphs.length = N ∧
      minByTime sFill.unetGraphs = some e0 ∧
      pipeline_call sFill (sh N).1 (sh N).2 b c = some (sFinal, g, tr) ∧
      lookupEntry sFinal.unetGraphs e0.hw = none ∧
      (∀ e ∈ sFill.unetGraphs, e.hw ≠ e0.hw →
        (lookupEntry sFinal.unetGraphs e.hw).isSome) ∧
      (lookupEntry sFinal.unetGraphs (sh N)).isSome) ∧
    ∀ (l : List UnetEntry) (e : UnetEntry), minByTime l = some e →
      (∀ x ∈ l, e.time ≤ x.time) ∧
      ∃ l1 l2, l = l1 ++ e :: l2 ∧ ∀ x ∈ l1, e.time < x.time := by
  refine ⟨?_, fun l e h => minByTime_spec h⟩
  obtain ⟨M, rfl⟩ : ∃ M, N = M + 1 := ⟨N - 1, by omega⟩
  obtain ⟨out, hout⟩ := runCalls_distinct_fill sh b c (M + 1) hinj (M + 1) le_rfl
  set tail : List UnetEntry :=
    (List.range M).map (fun i => ⟨sh (i + 1), i + 2, i + 1⟩) with htail
  have hdecomp := fillEntries_succ_decomp sh M
  have htailmem : ∀ x ∈ tail, ∃ i, i < M ∧ x = ⟨sh (i + 1), i + 2, i + 1⟩ := by
    intro x hx
    rw [htail] at hx
    obtain ⟨i, hi, rfl⟩ := List.mem_map.mp hx
    exact ⟨i, List.mem_range.mp hi, rfl⟩
  have hmin : minByTime (fillEntries sh (M + 1)) = some ⟨sh 0, 1, 0⟩ := by
    rw [hdecomp]
    simp only [minByTime]
    rw [foldlMin_of_not_lt]
    intro x hx
    obtain ⟨i, _, rfl⟩ := htailmem x hx
    show ¬ i + 2 < 1
    omega
  have hrem : removeKey (fillEntries sh (M + 1)) (sh 0) = tail := by
    rw [hdecomp]
    unfold removeKey
    rw [List.filter_cons_of_neg (by simp)]
    apply List.filter_eq_self.mpr
    intro x hx
    obtain ⟨i, hi, rfl⟩ := htailmem x hx
    simp only [decide_not, Bool.not_eq_true', decide_eq_false_iff_not]
    intro heq
    have := hinj (i + 1) 0 (by omega) (by omega) heq
    omega
  have hevict : evictLoop (fillEntries sh (M + 1)) (M + 1) = some tail := by
    have hstep := @evictLoop_step (fillEntries sh (M + 1)) (M + 1) ⟨sh 0, 1, 0⟩
      (by rw [fillEntries_length]) hmin
    rw [hstep]
    show evictLoop (removeKey (fillEntries sh (M + 1)) (sh 0)) (M + 1) = some tail
    rw [hrem]
    apply evictLoop_of_lt
    rw [htail]
    simp only [List.length_map, List.length_range]
    omega
  have hlookN : lookupEntry (fillEntries sh (M + 1)) (sh (M + 1)) = none :=
    lookupEntry_fillEntries_none hinj le_rfl le_rfl
  have hcall : pipeline_call
      ({ unetGraphs := fillEntries sh (M + 1), unetGraphsCacheSize := M + 1,
         unetGraphsLruCacheTime := M + 1, nextGraphId := M + 1 } : PipeState)
      (sh (M + 1)).1 (sh (M + 1)).2 b c =
      some ({ unetGraphs := tail ++ [⟨sh (M + 1), M + 2, M + 1⟩],
              unetGraphsCacheSize := M + 1,
              unetGraphsLruCacheTime := M + 2,
              nextGraphId := M + 2 },
            M + 1, [Ev.compile (M + 1), Ev.warmup (M + 1), Ev.insert (M + 1)]) :=
    pipeline_call_miss hlookN hevict
  refine ⟨_, out, ⟨sh 0, 1, 0⟩, _, M + 1,
    [Ev.compile (M + 1), Ev.warmup (M + 1), Ev.insert (M + 1)],
    hout, by rw [fillEntries_length], hmin, hcall, ?_, ?_, ?_⟩
  · rw [lookupEntry_eq_none_iff]
    intro e he
    rcases List.mem_append.mp he with he | he
    · obtain ⟨i, _, rfl⟩ := htailmem e he
      simp only
      intro heq
      have := hinj (i + 1) 0 (by omega) (by omega) heq
      omega
    · rcases List.mem_singleton.mp he with rfl
      simp only
      intro heq
      have := hinj (M + 1) 0 (by omega) (by omega) heq
      omega
  · intro e he hne
    rw [hdecomp] at he
    rcases List.mem_cons.mp he with rfl | he
    · exact absurd rfl hne
    · unfold lookupEntry
      rw [List.find?_isSome]
      exact ⟨e, List.mem_append.mpr (Or.inl he), by simp⟩
  · unfold lookupEntry
    rw [List.find?_isSome]
    exact ⟨⟨sh (M + 1), M + 2, M + 1⟩,
      List.mem_append.mpr (Or.inr (List.mem_singleton.mpr rfl)), by simp⟩

/-- Witness for `lru_evicts_smallest_recency` at capacity 2 with shapes
`(512, 512), (513, 512), (514, 512)`. -/
theorem lru_evicts_smallest_recency_witness :
    (∃ sFill out1 e0 sFinal g tr,
      runCalls (set_unet_graphs_cache_size initPipeState 2)
        (distinctArgs (fun i => (512 + i, 512)) 1 77 2) = some (sFill, out1) ∧
      sFill.unetGraphs.length = 2 ∧
      minByTime sFill.unetGraphs = some e0 ∧
      pipeline_call sFill 514 512 1 77 = some (sFinal, g, tr) ∧
      lookupEntry sFinal.unetGraphs e0.hw = none ∧
      (∀ e ∈ sFill.unetGraphs, e.hw ≠ e0.hw →
        (lookupEntry sFinal.unetGraphs e.hw).isSome) ∧
      (lookupEntry sFinal.unetGraphs (514, 512)).isSome) ∧
    ∀ (l : List UnetEntry) (e : UnetEntry), minByTime l = some e →
      (∀ x ∈ l, e.time ≤ x.time) ∧
      ∃ l1 l2, l = l1 ++ e :: l2 ∧ ∀ x ∈ l1, e.time < x.time :=
  lru_evicts_smallest_recency 2 (by omega) (fun i => (512 + i, 512)) 1 77
    (fun i j _ _ h => by
      have h1 := congrArg Prod.fst h
      simp only [] at h1
      omega)

/-- C3 counterexample: from the fresh pipeline with capacity 2, two calls
populate two cache entries; `set_unet_graphs_cache_size 1` then leaves
both entries in place — no eviction happens and the size (2) exceeds the
new capacity (1), contradicting both the immediate-eviction claim and
the size-within-capacity invariant. -/
theorem set_cache_size_counterexample :
    runCalls (set_unet_graphs_cache_size initPipeState 2)
        [⟨512, 512, 1, 77⟩, ⟨768, 768, 1, 77⟩] =
      some ({ unetGraphs := [⟨(512, 512), 1, 0⟩, ⟨(768, 768), 2, 1⟩],
              unetGraphsCacheSize := 2, unetGraphsLruCacheTime := 2,
              nextGraphId := 2 },
            [(0, [Ev.compile 0, Ev.warmup 0, Ev.insert 0]),
             (1, [Ev.compile 1, Ev.warmup 1, Ev.insert 1])]) ∧
    (set_unet_graphs_cache_size
        ({ unetGraphs := [⟨(512, 512), 1, 0⟩, ⟨(768, 768), 2, 1⟩],
           unetGraphsCacheSize := 2, unetGraphsLruCacheTime := 2,
           nextGraphId := 2 } : PipeState) 1).unetGraphs =
      [⟨(512, 512), 1, 0⟩, ⟨(768, 768), 2, 1⟩] ∧
    ¬ ((set_unet_graphs_cache_size
        ({ unetGraphs := [⟨(512, 512), 1, 0⟩, ⟨(768, 768), 2, 1⟩],
           unetGraphsCacheSize := 2, unetGraphsLruCacheTime := 2,
           nextGraphId := 2 } : PipeState) 1).unetGraphs.length ≤
       (set_unet_graphs_cache_size
        ({ unetGraphs := [⟨(512, 512), 1, 0⟩, ⟨(768, 768), 2, 1⟩],
           unetGraphsCacheSize := 2, unetGraphsLruCacheTime := 2,
           nextGraphId := 2 } : PipeState) 1).unetGraphsCacheSize) := by
  refine ⟨by decide, rfl, by decide⟩

/-- C3 amended: `set_unet_graphs_cache_size` only records the new bound —
it touches neither the cached entries nor anything else — and the bound
is enforced at the next cache-miss insertion: after a call that misses
and completes, the number of cached graphs is at most the configured
capacity. -/
theorem set_cache_size_defers_eviction (s : PipeState) (n : Nat) :
    (set_unet_graphs_cache_size s n).unetGraphs = s.unetGraphs ∧
    (set_unet_graphs_cache_size s n).unetGraphsCacheSize = n ∧
    ∀ (h w b c : Nat) (s' : PipeState) (g : Nat) (tr : List Ev),
      lookupEntry s.unetGraphs (h, w) = none →
      pipeline_call (set_unet_graphs_cache_size s n) h w b c = some (s', g, tr) →
      s'.unetGraphs.length ≤ n := by
  refine ⟨rfl, rfl, ?_⟩
  intro h w b c s' g tr hnone hcall
  have hnone' : lookupEntry (set_unet_graphs_cache_size s n).unetGraphs (h, w) = none :=
    hnone
  unfold pipeline_call at hcall
  rw [hnone'] at hcall
  cases hev : evictLoop (set_unet_graphs_cache_size s n).unetGraphs
      (set_unet_graphs_cache_size s n).unetGraphsCacheSize with
  | none =>
    rw [hev] at hcall
    simp at hcall
  | some l' =>
    rw [hev] at hcall
    simp only [Option.some.injEq, Prod.mk.injEq] at hcall
    obtain ⟨hs, -, -⟩ := hcall
    have hlen : l'.length < n := evictLoop_length hev
    rw [← hs]
    simp only [List.length_append, List.length_singleton]
    omega

/-- Witness for `set_cache_size_defers_eviction`: the first-ever call on
a capacity-1 pipeline misses and ends with one cached entry, within the
bound. -/
theorem set_cache_size_defers_eviction_witness :
    ({ unetGraphs := [⟨(512, 512), 1, 0⟩], unetGraphsCacheSize := 1,
       unetGraphsLruCacheTime := 1, nextGraphId := 1 } : PipeState).unetGraphs.length ≤ 1 :=
  (set_cache_size_defers_eviction initPipeState 1).2.2 512 512 1 77
    ({ unetGraphs := [⟨(512, 512), 1, 0⟩], unetGraphsCacheSize := 1,
       unetGraphsLruCacheTime := 1, nextGraphId := 1 }) 0
    [Ev.compile 0, Ev.warmup 0, Ev.insert 0] (by decide) (by decide)

/-- C4 counterexample: a first call at height 512, width 512 with batch
size 1 compiles unit 0; a second call at the same height/width but batch
size 2 — a different ShapeSignature in the spec's sense — is served by
the very same unit 0 with an empty event trace: no new compilation is
triggered, because the cache key is `(height, width)` only. -/
theorem shape_signature_counterexample :
    pipeline_call initPipeState 512 512 1 77 =
      some ({ unetGraphs := [⟨(512, 512), 1, 0⟩], unetGraphsCacheSize := 1,
              unetGraphsLruCacheTime := 1, nextGraphId := 1 }, 0,
            [Ev.compile 0, Ev.warmup 0, Ev.insert 0]) ∧
    pipeline_call
      ({ unetGraphs := [⟨(512, 512), 1, 0⟩], unetGraphsCacheSize := 1,
         unetGraphsLruCacheTime := 1, nextGraphId := 1 } : PipeState)
      512 512 2 77 =
      some ({ unetGraphs := [⟨(512, 512), 2, 0⟩], unetGraphsCacheSize := 1,
              unetGraphsLruCacheTime := 2, nextGraphId := 1 }, 0, []) := by
  exact ⟨by decide, by decide⟩

/-- C4 amended: the cache key derived from a call is `(height, width)`
alone.  (1) Batch size and conditioning length never influence a call's
outcome.  (2) While the key is cached, a call with that height/width is
served by the cached unit with no compilation.  (3) From an empty cache
with capacity at least 2, calls with two different `(height, width)`
keys are served by two distinct units from two separate compilations. -/
theorem shape_signature_is_height_width_only :
    (∀ (s : PipeState) (h w b1 c1 b2 c2 : Nat),
      pipeline_call s h w b1 c1 = pipeline_call s h w b2 c2) ∧
    (∀ (s : PipeState) (h w b c : Nat) (e : UnetEntry),
      lookupEntry s.unetGraphs (h, w) = some e →
      ∃ s', pipeline_call s h w b c = some (s', e.graph, [])) ∧
    (∀ (h1 w1 h2 w2 b c n : Nat), (h1, w1) ≠ (h2, w2) → 2 ≤ n →
      ∃ s1 s2,
        pipeline_call (set_unet_graphs_cache_size initPipeState n) h1 w1 b c =
          some (s1, 0, [Ev.compile 0, Ev.warmup 0, Ev.insert 0]) ∧
        pipeline_call s1 h2 w2 b c =
          some (s2, 1, [Ev.compile 1, Ev.warmup 1, Ev.insert 1])) := by
  refine ⟨fun s h w b1 c1 b2 c2 => rfl, ?_, ?_⟩
  · intro s h w b c e he
    exact ⟨_, pipeline_call_hit he⟩
  · intro h1 w1 h2 w2 b c n hne hn
    have hlook1 : lookupEntry
        (set_unet_graphs_cache_size initPipeState n).unetGraphs (h1, w1) = none := rfl
    have hev1 : evictLoop (set_unet_graphs_cache_size initPipeState n).unetGraphs
        (set_unet_graphs_cache_size initPipeState n).unetGraphsCacheSize = some [] := by
      apply evictLoop_of_lt
      show 0 < n
      omega
    have hcall1 := @pipeline_call_miss (set_unet_graphs_cache_size initPipeState n)
      h1 w1 b c hlook1 [] hev1
    set s1 : PipeState :=
      { unetGraphs := [] ++ [⟨(h1, w1), 0 + 1, 0⟩],
        unetGraphsCacheSize := n, unetGraphsLruCacheTime := 0 + 1,
        nextGraphId := 0 + 1 } with hs1
    have hlook2 : lookupEntry s1.unetGraphs (h2, w2) = none := by
      rw [lookupEntry_eq_none_iff]
      intro e hee
      rw [hs1] at hee
      simp only [List.nil_append, List.mem_singleton] at hee
      subst hee
      simpa using hne
    have hev2 : evictLoop s1.unetGraphs s1.unetGraphsCacheSize = some s1.unetGraphs := by
      apply evictLoop_of_lt
      rw [hs1]
      simp only [List.nil_append, List.length_singleton]
      omega
    have hcall2 := @pipeline_call_miss s1 h2 w2 b c hlook2 s1.unetGraphs hev2
    exact ⟨s1, _, hcall1, hcall2⟩

/-- Witness for `shape_signature_is_height_width_only` at concrete
inputs: a cached `(512, 512)` entry served without compilation for batch
size 2, and `(512, 512)` versus `(768, 768)` compiled separately at
capacity 2. -/
theorem shape_signature_is_height_width_only_witness :
    (∃ s', pipeline_call
        ({ unetGraphs := [⟨(512, 512), 1, 5⟩], unetGraphsCacheSize := 1,
           unetGraphsLruCacheTime := 1, nextGraphId := 6 } : PipeState)
        512 512 2 77 = some (s', 5, [])) ∧
    (∃ s1 s2,
      pipeline_call (set_unet_graphs_cache_size initPipeState 2) 512 512 1 77 =
        some (s1, 0, [Ev.compile 0, Ev.warmup 0, Ev.insert 0]) ∧
      pipeline_call s1 768 768 1 77 =
        some (s2, 1, [Ev.compile 1, Ev.warmup 1, Ev.insert 1])) :=
  ⟨shape_signature_is_height_width_only.2.1
      ({ unetGraphs := [⟨(512, 512), 1, 5⟩], unetGraphsCacheSize := 1,
         unetGraphsLruCacheTime := 1, nextGraphId := 6 }) 512 512 2 77
      ⟨(512, 512), 1, 5⟩ (by decide),
   shape_signature_is_height_width_only.2.2 512 512 768 768 1 77 2
      (by decide) (by decide)⟩

/-- C5: in any successful pipeline call, every dict insertion of a graph
is preceded in the call's event trace by a warmup run of that same
graph; a freshly compiled graph returned by the call has been warmed up
within the call; and a call with an empty trace was served from the
cache. -/
theorem warmup_before_insert_and_return
    (s : PipeState) (h w b c : Nat) (s' : PipeState) (g : Nat) (tr : List Ev)
    (hcall : pipeline_call s h w b c = some (s', g, tr)) :
    (∀ (g' i : Nat), tr.get? i = some (Ev.insert g') →
      ∃ j, j < i ∧ tr.get? j = some (Ev.warmup g')) ∧
    (Ev.compile g ∈ tr → Ev.warmup g ∈ tr) ∧
    (tr = [] → ∃ e, lookupEntry s.unetGraphs (h, w) = some e ∧ g = e.graph) := by
  unfold pipeline_call at hcall
  cases he : lookupEntry s.unetGraphs (h, w) with
  | some e =>
    rw [he] at hcall
    simp only [Option.some.injEq, Prod.mk.injEq] at hcall
    obtain ⟨-, hg, htr⟩ := hcall
    subst htr
    refine ⟨?_, ?_, ?_⟩
    · intro g' i hi
      simp at hi
    · intro hmem
      simp at hmem
    · intro _
      exact ⟨e, rfl, hg.symm⟩
  | none =>
    rw [he] at hcall
    cases hev : evictLoop s.unetGraphs s.unetGraphsCacheSize with
    | none =>
      rw [hev] at hcall
      simp at hcall
    | some l' =>
      rw [hev] at hcall
      simp only [Option.some.injEq, Prod.mk.injEq] at hcall
      obtain ⟨-, hg, htr⟩ := hcall
      subst htr
      refine ⟨?_, ?_, ?_⟩
      · intro g' i hi
        match i with
        | 0 => simp [List.get?] at hi
        | 1 => simp [List.get?] at hi
        | 2 =>
          simp only [List.get?, Option.some.injEq, Ev.insert.injEq] at hi
          subst hi
          exact ⟨1, by omega, rfl⟩
        | (n + 3) => simp [List.get?] at hi
      · intro hmem
        rw [← hg]
        simp
      · intro htr
        cases htr

/-- Witness for `warmup_before_insert_and_return`: the first call on the
fresh pipeline, whose trace is compile, warmup, insert of graph 0. -/
theorem warmup_before_insert_and_return_witness :
    (∀ (g' i : Nat),
      ([Ev.compile 0, Ev.warmup 0, Ev.insert 0] : List Ev).get? i =
          some (Ev.insert g') →
      ∃ j, j < i ∧ ([Ev.compile 0, Ev.warmup 0, Ev.insert 0] : List Ev).get? j =
          some (Ev.warmup g')) ∧
    (Ev.compile 0 ∈ ([Ev.compile 0, Ev.warmup 0, Ev.insert 0] : List Ev) →
      Ev.warmup 0 ∈ ([Ev.compile 0, Ev.warmup 0, Ev.insert 0] : List Ev)) ∧
    (([Ev.compile 0, Ev.warmup 0, Ev.insert 0] : List Ev) = [] →
      ∃ e, lookupEntry initPipeState.unetGraphs (512, 512) = some e ∧ 0 = e.graph) :=
  warmup_before_insert_and_return initPipeState 512 512 1 77
    ({ unetGraphs := [⟨(512, 512), 1, 0⟩], unetGraphsCacheSize := 1,
       unetGraphsLruCacheTime := 1, nextGraphId := 1 }) 0
    [Ev.compile 0, Ev.warmup 0, Ev.insert 0] (by decide)

/-!
Part 2 models `OneflowDeployableModule` in
`src/onediff/infer_compiler/oneflow/deployable_module.py`: the `to`
device guard, the `set_graph_file` path change, and the
exception-handling call path.  Devices and graph results are abstract
numbers; the held graph object is identified by its block count and
bound device where `to` inspects them.
-/

/-- A oneflow `nn.Graph` held by the module, as far as `to` observes it:
`len(self._deployable_module_dpl_graph._blocks)` and
`next(self._deployable_module_dpl_graph._state()).device`. -/
structure DplGraph where
  blocks : Nat
  device : Nat
deriving DecidableEq, Repr

/-- The `OneflowDeployableModule` fields read or written by `to`,
`set_graph_file`, `_clear_old_graph` and `get_graph_file`:
`_deployable_module_dpl_graph`, the device of
`_deployable_module_model`, `_deployable_module_options["graph_file"]`,
`_load_graph_first_run`, and whether the dual module still caches its
oneflow module (`del self._deployable_module_model.oneflow_module`). -/
structure DeployState where
  dplGraph : Option DplGraph
  modelDevice : Nat
  graphFileOption : Option String
  loadGraphFirstRun : Bool
  hasOneflowModule : Bool
deriving DecidableEq, Repr

/-- Modelled from the spec: `check_device` (with `parse_device`) lives in
`onediff/infer_compiler/utils/param_utils.py`, which is absent from the
corpus; per spec section 4.3 a transfer is permitted exactly "when the
target device equals the graph's bound device", so the check is device
equality. -/
def check_device (current target : Nat) : Bool := current == target

/-- The message of the `RuntimeError` raised by `to` on a device
mismatch after the graph is built. -/
def deviceMismatchError : String :=
  "After graph built, the device of graph can not be modified"

/-- `OneflowDeployableModule.to` (lines 99-116): with no held graph the
underlying model is moved directly; otherwise, when a target device was
parsed from the arguments and the graph has blocks, a device mismatch
raises `RuntimeError` before the model is touched; in every other case
the model is moved.  Returns the new state and the raised error, if
any (`none` target device models a `to` call without a device argument,
which leaves the device unchanged). -/
def deployable_to (s : DeployState) (targetDevice : Option Nat) :
    DeployState × Option String :=
  match s.dplGraph with
  | none => ({ s with modelDevice := targetDevice.getD s.modelDevice }, none)
  | some g =>
      match targetDevice with
      | some d =>
          if 0 < g.blocks then
            if check_device g.device d then
              ({ s with modelDevice := d }, none)
            else (s, some deviceMismatchError)
          else ({ s with modelDevice := d }, none)
      | none => (s, none)

/-- C6: `to` succeeds and moves the model whenever no compiled graph has
been built yet (no graph object, or a graph without blocks) or the
target equals the graph's bound device; when a graph with blocks is held
and the target device differs, it raises and the model keeps its
device. -/
theorem deployable_to_device_guard (s : DeployState) (target : Option Nat) :
    ((s.dplGraph = none ∨ (∀ g, s.dplGraph = some g → g.blocks = 0) ∨
      (∃ g, s.dplGraph = some g ∧ target = some g.device)) →
      deployable_to s target =
        ({ s with modelDevice := target.getD s.modelDevice }, none)) ∧
    (∀ g d, s.dplGraph = some g → 0 < g.blocks → target = some d →
      d ≠ g.device →
      deployable_to s target = (s, some deviceMismatchError)) := by
  constructor
  · intro hcond
    obtain ⟨dg, md, gf, lf, hm⟩ := s
    rcases hcond with hnone | hzero | ⟨g, hg, htgt⟩
    · have hdg : dg = none := hnone
      subst hdg
      rfl
    · cases dg with
      | none => rfl
      | some g =>
        have hb := hzero g rfl
        cases target with
        | none => rfl
        | some d =>
          simp only [deployable_to, hb]
          rfl
    · have hdg : dg = some g := hg
      subst hdg
      subst htgt
      simp only [deployable_to, check_device, beq_self_eq_true, if_true]
      split <;> rfl
  · intro g d hg hb htgt hne
    obtain ⟨dg, md, gf, lf, hm⟩ := s
    have hdg : dg = some g := hg
    subst hdg
    subst htgt
    simp only [deployable_to]
    rw [if_pos hb, if_neg]
    simp only [check_device, beq_iff_eq]
    exact fun h => hne h.symm

/-- Witness for `deployable_to_device_guard`: moving a graph-free module
to device 1 succeeds; moving a module holding a built graph bound to
device 0 towards device 1 raises and leaves the module on device 0. -/
theorem deployable_to_device_guard_witness :
    deployable_to ⟨none, 0, none, true, true⟩ (some 1) =
      (⟨none, 1, none, true, true⟩, none) ∧
    deployable_to ⟨some ⟨3, 0⟩, 0, none, false, true⟩ (some 1) =
      (⟨some ⟨3, 0⟩, 0, none, false, true⟩, some deviceMismatchError) :=
  ⟨(deployable_to_device_guard ⟨none, 0, none, true, true⟩ (some 1)).1
      (Or.inl rfl),
   (deployable_to_device_guard ⟨some ⟨3, 0⟩, 0, none, false, true⟩ (some 1)).2
      ⟨3, 0⟩ 1 rfl (by decide) rfl (by decide)⟩

/-- `OneflowDeployableModule.get_graph_file`:
`self._deployable_module_options.get("graph_file", None)`. -/
def get_graph_file (s : DeployState) : Option String := s.graphFileOption

/-- `OneflowDeployableModule.set_graph_file` (lines 151-173): returns
unchanged when `file_path` is truthy (non-empty) and equals the stored
path; otherwise stores the new path and runs `_clear_old_graph`, which
sets `_load_graph_first_run = True`, drops the held graph and deletes
the cached oneflow module. -/
def set_graph_file (s : DeployState) (filePath : String) : DeployState :=
  let oldFilePath := get_graph_file s
  if filePath ≠ "" ∧ oldFilePath = some filePath then s
  else { s with graphFileOption := some filePath,
                loadGraphFirstRun := true,
                dplGraph := none,
                hasOneflowModule := false }

/-- C8 counterexample: a module whose configured graph-file path is the
empty string and which holds a compiled graph; `set_graph_file ""` — the
new path equal to the configured one — is not a no-op: Python's
truthiness test `if file_path and old_file_path == file_path` fails for
the empty string, so the held graph is cleared. -/
theorem set_graph_file_counterexample :
    get_graph_file ⟨some ⟨1, 0⟩, 0, some "", false, true⟩ = some "" ∧
    (⟨some ⟨1, 0⟩, 0, some "", false, true⟩ : DeployState).dplGraph = some ⟨1, 0⟩ ∧
    (set_graph_file ⟨some ⟨1, 0⟩, 0, some "", false, true⟩ "").dplGraph = none ∧
    set_graph_file ⟨some ⟨1, 0⟩, 0, some "", false, true⟩ "" ≠
      ⟨some ⟨1, 0⟩, 0, some "", false, true⟩ := by
  refine ⟨rfl, rfl, rfl, by decide⟩

/-- C8 amended: `set_graph_file p` with `p` non-empty and equal to the
currently configured path is a no-op keeping the held graph; with `p`
different from the configured path — or `p` empty — it records `p` as
the new graph file, clears the held compiled graph, marks the next run
as a first run and drops the cached oneflow module. -/
theorem set_graph_file_spec (s : DeployState) (p : String) :
    (p ≠ "" → get_graph_file s = some p → set_graph_file s p = s) ∧
    ((get_graph_file s ≠ some p ∨ p = "") →
      (set_graph_file s p).graphFileOption = some p ∧
      (set_graph_file s p).dplGraph = none ∧
      (set_graph_file s p).loadGraphFirstRun = true ∧
      (set_graph_file s p).hasOneflowModule = false) := by
  constructor
  · intro hp hold
    unfold set_graph_file
    rw [if_pos ⟨hp, hold⟩]
  · intro hcase
    have hneg : ¬ (p ≠ "" ∧ get_graph_file s = some p) := by
      rcases hcase with h | h
      · exact fun hand => h hand.2
      · exact fun hand => hand.1 h
    unfold set_graph_file
    rw [if_neg hneg]
    exact ⟨rfl, rfl, rfl, rfl⟩

/-- Witness for `set_graph_file_spec`: setting the already-configured
non-empty path "a" is a no-op; setting a different path "b" clears the
held graph. -/
theorem set_graph_file_spec_witness :
    set_graph_file ⟨some ⟨2, 0⟩, 0, some "a", false, true⟩ "a" =
      ⟨some ⟨2, 0⟩, 0, some "a", false, true⟩ ∧
    (set_graph_file ⟨some ⟨2, 0⟩, 0, some "a", false, true⟩ "b").dplGraph = none :=
  ⟨(set_graph_file_spec ⟨some ⟨2, 0⟩, 0, some "a", false, true⟩ "a").1
      (by decide) rfl,
   ((set_graph_file_spec ⟨some ⟨2, 0⟩, 0, some "a", false, true⟩ "b").2
      (Or.inl (by decide))).2.1⟩

/-- Whether a compilation attempted during this call succeeds, producing
a graph, or raises `CompilationFailed`. -/
inductive CompileOutcome where
  | success (g : Nat)
  | failure
deriving DecidableEq, Repr

/-- The `OneflowDeployableModule` fields read by `__call__`:
`_deployable_module_use_graph` and the held graph
`_deployable_module_dpl_graph` (`none` is the UNBUILT state; there is no
fallback flag of any kind among the module's fields). -/
structure CallState where
  useGraph : Bool
  dplGraph : Option Nat
deriving DecidableEq, Repr

/-- Modelled from the spec: the `handle_deployable_exception` decorator
wrapping `OneflowDeployableModule.__call__` and the graph construction
inside `get_graph` / `graph_file_management` live in
`onediff/infer_compiler/oneflow/utils.py` and
`onediff/infer_compiler/utils/graph_management_utils.py`, which are
absent from the corpus; only the decorated `__call__` body is present.
Per spec sections 4.3 and 7, with `use_graph` true the call builds the
graph when none is held yet and runs it; a `CompilationFailed` raised
while doing so is caught, logged, and the call falls back to running the
eager module, returning that result with the module state untouched.
The compile outcome is an oracle argument; `graphRun`/`eagerResult`
abstract the two execution paths. -/
def deployable_call (s : CallState) (outcome : CompileOutcome)
    (graphRun : Nat → Nat) (eagerResult : Nat) : CallState × Nat :=
  if s.useGraph then
    match s.dplGraph with
    | some g => (s, graphRun g)
    | none =>
        match outcome with
        | CompileOutcome.success g => ({ s with dplGraph := some g }, graphRun g)
        | CompileOutcome.failure => (s, eagerResult)
  else (s, eagerResult)

/-- C7: a call in the UNBUILT state with `use_graph` true whose
compilation fails returns the eager result and leaves the module state
exactly as it was — no graph cached, still UNBUILT, no fallback flag —
and the same state retries compilation on the next call: when that
compilation succeeds the graph is installed and runs. -/
theorem compilation_failure_falls_back_eagerly
    (s : CallState) (graphRun : Nat → Nat) (eagerResult : Nat)
    (huse : s.useGraph = true) (hun : s.dplGraph = none) :
    deployable_call s CompileOutcome.failure graphRun eagerResult = (s, eagerResult) ∧
    ∀ (g : Nat) (graphRun2 : Nat → Nat) (eager2 : Nat),
      (deployable_call s (CompileOutcome.success g) graphRun2 eager2).1.dplGraph =
        some g ∧
      (deployable_call s (CompileOutcome.success g) graphRun2 eager2).2 =
        graphRun2 g := by
  constructor
  · simp [deployable_call, huse, hun]
  · intro g graphRun2 eager2
    constructor
    · simp [deployable_call, huse, hun]
    · simp [deployable_call, huse, hun]

/-- Witness for `compilation_failure_falls_back_eagerly` at the UNBUILT
module with `use_graph` true, eager result 7. -/
theorem compilation_failure_falls_back_eagerly_witness :
    deployable_call ⟨true, none⟩ CompileOutcome.failure (fun g => g + 100) 7 =
      (⟨true, none⟩, 7) ∧
    ∀ (g : Nat) (graphRun2 : Nat → Nat) (eager2 : Nat),
      (deployable_call ⟨true, none⟩ (CompileOutcome.success g) graphRun2 eager2).1.dplGraph =
        some g ∧
      (deployable_call ⟨true, none⟩ (CompileOutcome.success g) graphRun2 eager2).2 =
        graphRun2 g :=
  compilation_failure_falls_back_eagerly ⟨true, none⟩ (fun g => g + 100) 7 rfl rfl

/-!
Part 3 models `onediff_sd_webui_extensions/scripts/onediff.py`: the
`UnetCompileCtx` context manager and the recompile decision of
`Script.run` together with `Script.check_model_structure_change`.
Compiled unet objects are identified by numbers drawn from a fresh
counter; the host attribute `shared.sd_model.model.diffusion_model` is a
value of an arbitrary type.
-/

/-- The `with UnetCompileCtx(): ...` execution (lines 92-105 and 213-216):
`__enter__` saves `shared.sd_model.model.diffusion_model` into
`self._original_model` and assigns the global `compiled_unet` to the
attribute; the body runs on the swapped attribute and either finishes
normally or raises; `__exit__` runs on both paths, restores the saved
original, and returns `False`, so the error arm re-raises the body's
exception instead of suppressing it.  The body is an arbitrary function
of the attribute value returning the attribute's final value and a
normal result or an exception. -/
def withUnetCompileCtx {D R E : Type} (compiledUnet : D)
    (body : D → D × Except E R) (attr : D) : D × Except E R :=
  let saved := attr
  let (_, res) := body compiledUnet
  match res with
  | Except.ok r => (saved, Except.ok r)
  | Except.error e => (saved, Except.error e)

/-- C9: within the with-block the attribute the body observes is the
global `compiled_unet`; on every exit path the attribute is restored to
exactly the value it held at entry, and the body's outcome — normal
result or exception — propagates to the caller unchanged. -/
theorem unet_compile_ctx_restores {D R E : Type} (compiledUnet : D)
    (body : D → D × Except E R) (m : D) :
    (withUnetCompileCtx compiledUnet body m).1 = m ∧
    (withUnetCompileCtx compiledUnet body m).2 = (body compiledUnet).2 ∧
    (∀ e, (body compiledUnet).2 = Except.error e →
      withUnetCompileCtx compiledUnet body m = (m, Except.error e)) ∧
    (∀ r, (body compiledUnet).2 = Except.ok r →
      withUnetCompileCtx compiledUnet body m = (m, Except.ok r)) := by
  unfold withUnetCompileCtx
  rcases hbody : body compiledUnet with ⟨attrB, res⟩
  cases res with
  | ok r =>
    refine ⟨rfl, rfl, ?_, ?_⟩
    · intro e he
      simp at he
    · intro r2 hr
      simp only [Option.some.injEq] at hr
      simp only [Except.ok.injEq] at hr
      rw [hr]
  | error e =>
    refine ⟨rfl, rfl, ?_, ?_⟩
    · intro e2 he
      simp only [Except.error.injEq] at he
      rw [he]
    · intro r hr
      simp at hr

/-- Witness for `unet_compile_ctx_restores` over numbers: a raising body
and a normal body, both entered with attribute 9 and compiled unet 5. -/
theorem unet_compile_ctx_restores_witness :
    withUnetCompileCtx 5 (fun d => (d + 1, (Except.error 3 : Except Nat Nat))) 9 =
      (9, Except.error 3) ∧
    withUnetCompileCtx 5 (fun d => (d + 1, (Except.ok (d * 2) : Except Nat Nat))) 9 =
      (9, Except.ok 10) :=
  ⟨(unet_compile_ctx_restores 5 (fun d => (d + 1, Except.error 3)) 9).2.2.1 3 rfl,
   (unet_compile_ctx_restores 5 (fun d => (d + 1, Except.ok (d * 2))) 9).2.2.2 10 rfl⟩

/-- The four structure flags `Script.check_model_structure_change` reads
from the model (`is_sdxl`, `is_sd2`, `is_sd1`, `is_ssd`). -/
structure ModelFlags where
  sdxlFlag : Bool
  sd2Flag : Bool
  sd1Flag : Bool
  ssdFlag : Bool
deriving DecidableEq, Repr

/-- The script state `Script.run` reads and writes: `Script.current_type`,
`Script.convname_dict` (parameter name to transposed target tensor,
`none` for a missing tensor, tensors by identity), the globals
`compiled_unet` and `compiled_ckpt_name`, and a fresh-identity counter
for newly compiled unets. -/
structure ScriptState where
  currentType : Option ModelFlags
  convnameDict : Option (List (String × Option Nat))
  compiledUnet : Option Nat
  compiledCkptName : Option String
  nextUnetId : Nat
deriving DecidableEq, Repr

/-- `Script.check_model_structure_change` (lines 151-172): changed when
nothing is recorded yet or any recorded flag differs from the model;
when changed, the model's flags are recorded.  Returns `is_changed` and
the updated state. -/
def check_model_structure_change (s : ScriptState) (flags : ModelFlags) :
    Bool × ScriptState :=
  let isChanged :=
    match s.currentType with
    | none => true
    | some t => if t = flags then false else true
  if isChanged then (true, { s with currentType := some flags })
  else (false, s)

/-- The weight-copy loop of `Script.run` (lines 194-204): iterate
`convname_dict`; at the first key whose target tensor is `None` set
`need_recompile` and break; otherwise copy the transposed weight into
the target.  Returns whether a missing target was found and the keys
whose weights were copied (those visited before any break). -/
def copyConvWeights : List (String × Option Nat) → Bool × List String
  | [] => (false, [])
  | (k, target) :: rest =>
      match target with
      | none => (true, [])
      | some _ =>
          let (b, ks) := copyConvWeights rest
          (b, k :: ks)

/-- `Script.run` (lines 174-234), restricted to its recompile decision
and state updates.  `quantization` is the checkbox value (the community
HTML-string case is already coerced to false), `currentCheckpoint` is
`shared.opts.sd_model_checkpoint`, `flags` are the model's structure
flags, and `extract` abstracts reading
`compiled_unet._deployable_module_dpl_graph._c_nn_graph.get_runtime_var_states()`
into the conv-name dictionary after the with-block.  Returns the new
state, whether `compile_unet` was invoked, and the keys whose conv
weights were copied; `none` where Python raises (iterating a `None`
`convname_dict`, or reading runtime state of a never-compiled unet). -/
def script_run (s : ScriptState) (quantization : Bool)
    (currentCheckpoint : String) (flags : ModelFlags)
    (extract : Nat → List (String × Option Nat)) :
    Option (ScriptState × Bool × List String) :=
  let ckptName :=
    if quantization then currentCheckpoint ++ "_quantized" else currentCheckpoint
  let modelChanged := s.compiledCkptName != some ckptName
  let (modelStructureChanged, s1) := check_model_structure_change s flags
  let needRecompile0 := (quantization && modelChanged) || modelStructureChanged
  let step2 : Option (Bool × List String) :=
    if !needRecompile0 && modelChanged then
      match s1.convnameDict with
      | none => none
      | some d => some (copyConvWeights d)
    else some (false, [])
  match step2 with
  | none => none
  | some (foundMissing, copied) =>
      let needRecompile := needRecompile0 || foundMissing
      let s2 :=
        if needRecompile then
          { s1 with compiledUnet := some s1.nextUnetId,
                    nextUnetId := s1.nextUnetId + 1,
                    compiledCkptName := some ckptName,
                    convnameDict := none }
        else s1
      if !quantization && s2.convnameDict == none then
        match s2.compiledUnet with
        | none => none
        | some u =>
            some ({ s2 with convnameDict := some (extract u) }, needRecompile, copied)
      else
        some (s2, needRecompile, copied)

theorem check_model_structure_change_spec (s : ScriptState) (flags : ModelFlags) :
    ((check_model_structure_change s flags).1 = true ↔ s.currentType ≠ some flags) ∧
    (check_model_structure_change s flags).2.convnameDict = s.convnameDict ∧
    (check_model_structure_change s flags).2.compiledUnet = s.compiledUnet ∧
    (check_model_structure_change s flags).2.compiledCkptName = s.compiledCkptName ∧
    (check_model_structure_change s flags).2.nextUnetId = s.nextUnetId := by
  unfold check_model_structure_change
  cases hct : s.currentType with
  | none => simp
  | some t =>
    by_cases ht : t = flags
    · subst ht
      simp
    · simp [ht]

theorem copyConvWeights_spec (d : List (String × Option Nat)) :
    ((copyConvWeights d).1 = true ↔ ∃ k, (k, (none : Option Nat)) ∈ d) ∧
    ((copyConvWeights d).1 = false → (copyConvWeights d).2 = d.map Prod.fst) := by
  induction d with
  | nil => simp [copyConvWeights]
  | cons kv rest ih =>
    obtain ⟨k, target⟩ := kv
    obtain ⟨ih1, ih2⟩ := ih
    cases target with
    | none =>
      constructor
      · simp [copyConvWeights]
      · intro hb
        simp [copyConvWeights] at hb
    | some v =>
      rcases hcw : copyConvWeights rest with ⟨b, ks⟩
      rw [hcw] at ih1 ih2
      simp only at ih1 ih2
      constructor
      · simp only [copyConvWeights, hcw]
        constructor
        · intro hb
          obtain ⟨k2, hk2⟩ := ih1.mp hb
          exact ⟨k2, List.mem_cons_of_mem _ hk2⟩
        · intro hex
          obtain ⟨k2, hk2⟩ := hex
          rcases List.mem_cons.mp hk2 with h | h
          · exact absurd (congrArg Prod.snd h) (by simp)
          · exact ih1.mpr ⟨k2, h⟩
      · intro hb
        simp only [copyConvWeights, hcw] at hb ⊢
        rw [List.map_cons, ih2 hb]


/-- C10: `compile_unet` is invoked by `Script.run` exactly when the
model's structure flags differ from those recorded on the previous run
(including when nothing is recorded yet), or quantization is enabled
and the effective checkpoint name (the checkpoint plus the
`_quantized` suffix) differs from the last compiled name, or the
checkpoint name changed and the weight-copy loop finds a parameter
whose transposed target tensor is missing; when it is not invoked, the
previously compiled unet is kept, and if the checkpoint name changed
the conv weights of every key in the dictionary are copied into it. -/
theorem script_run_recompile_exactly_when
    (s : ScriptState) (q : Bool) (ckpt : String) (flags : ModelFlags)
    (extract : Nat → List (String × Option Nat))
    (s' : ScriptState) (compiled : Bool) (copied : List String)
    (hrun : script_run s q ckpt flags extract = some (s', compiled, copied)) :
    (compiled = true ↔
      (s.currentType ≠ some flags ∨
       (q = true ∧ s.compiledCkptName ≠ some (ckpt ++ "_quantized")) ∨
       (s.compiledCkptName ≠ some (if q then ckpt ++ "_quantized" else ckpt) ∧
        ∃ k, (k, (none : Option Nat)) ∈ s.convnameDict.getD []))) ∧
    (compiled = false →
      s'.compiledUnet = s.compiledUnet ∧
      (s.compiledCkptName ≠ some (if q then ckpt ++ "_quantized" else ckpt) →
        ∃ d, s.convnameDict = some d ∧ copied = d.map Prod.fst)) := by
  rcases hcheck : check_model_structure_change s flags with ⟨sc, s1⟩
  have hspec := check_model_structure_change_spec s flags
  rw [hcheck] at hspec
  obtain ⟨hsc, hconv, hunet, hck, -⟩ := hspec
  simp only at hsc hconv hunet hck
  unfold script_run at hrun
  rw [hcheck] at hrun
  cases sc with
  | true =>
    have hstruct : s.currentType ≠ some flags := hsc.mp rfl
    cases q with
    | true =>
      simp at hrun
      obtain ⟨hs', hcmp, hcp⟩ := hrun
      subst hcmp
      refine ⟨iff_of_true rfl (Or.inl hstruct), ?_⟩
      intro hfalse
      exact absurd hfalse (by simp)
    | false =>
      simp at hrun
      obtain ⟨hs', hcmp, hcp⟩ := hrun
      subst hcmp
      refine ⟨iff_of_true rfl (Or.inl hstruct), ?_⟩
      intro hfalse
      exact absurd hfalse (by simp)
  | false =>
    have hstructEq : s.currentType = some flags := by
      by_contra hne
      exact absurd (hsc.mpr hne) (by simp)
    cases q with
    | true =>
      by_cases hmc : s.compiledCkptName = some (ckpt ++ "_quantized")
      · simp [hmc] at hrun
        obtain ⟨hs', hcmp, hcp⟩ := hrun
        subst hcmp
        subst hs'
        constructor
        · refine iff_of_false (by simp) ?_
          rintro (h | ⟨-, h⟩ | ⟨h, -⟩)
          · exact h hstructEq
          · exact h hmc
          · exact h hmc
        · intro _
          exact ⟨hunet, fun hne => absurd hmc hne⟩
      · simp [hmc] at hrun
        have hbne : (s.compiledCkptName != some (ckpt ++ "_quantized")) = true := by
          simpa [bne_iff_ne] using hmc
        obtain ⟨hs', hcmp, hcp⟩ := hrun
        rw [hbne] at hcmp
        have hcmp2 : compiled = true := hcmp.symm
        subst hcmp2
        refine ⟨iff_of_true rfl (Or.inr (Or.inl ⟨rfl, hmc⟩)), ?_⟩
        intro hfalse
        exact absurd hfalse (by simp)
    | false =>
      by_cases hmc : s.compiledCkptName = some ckpt
      · cases hd : s1.convnameDict with
        | none =>
          simp [hmc, hd] at hrun
          cases hcu : s1.compiledUnet with
          | none =>
            rw [hcu] at hrun
            simp at hrun
          | some u =>
            rw [hcu] at hrun
            simp at hrun
            obtain ⟨hs', hcmp, hcp⟩ := hrun
            subst hcmp
            subst hs'
            constructor
            · refine iff_of_false (by simp) ?_
              rintro (h | ⟨hqq, -⟩ | ⟨h, -⟩)
              · exact h hstructEq
              · exact absurd hqq (by simp)
              · exact h hmc
            · intro _
              refine ⟨?_, fun hne => absurd hmc hne⟩
              show some u = s.compiledUnet
              rw [← hcu]
              exact hunet
        | some d =>
          simp [hmc, hd] at hrun
          obtain ⟨hs', hcmp, hcp⟩ := hrun
          subst hcmp
          subst hs'
          constructor
          · refine iff_of_false (by simp) ?_
            rintro (h | ⟨hqq, -⟩ | ⟨h, -⟩)
            · exact h hstructEq
            · exact absurd hqq (by simp)
            · exact h hmc
          · intro _
            exact ⟨hunet, fun hne => absurd hmc hne⟩
      · cases hd : s1.convnameDict with
        | none =>
          simp [hmc, hd] at hrun
        | some d =>
          have hsd : s.convnameDict = some d := by
            rw [← hconv]
            exact hd
          rcases hcw : copyConvWeights d with ⟨fm, cp⟩
          simp [hmc, hd, hcw] at hrun
          cases fm with
          | true =>
            simp at hrun
            obtain ⟨hs', hcmp, hcp⟩ := hrun
            subst hcmp
            constructor
            · refine iff_of_true rfl (Or.inr (Or.inr ⟨hmc, ?_⟩))
              rw [hsd]
              refine (copyConvWeights_spec d).1.mp ?_
              rw [hcw]
            · intro hfalse
              exact absurd hfalse (by simp)
          | false =>
            simp [hd] at hrun
            obtain ⟨hs', hcmp, hcp⟩ := hrun
            subst hcmp
            subst hs'
            constructor
            · refine iff_of_false (by simp) ?_
              rintro (h | ⟨hqq, -⟩ | ⟨-, hex⟩)
              · exact h hstructEq
              · exact absurd hqq (by simp)
              · rw [hsd] at hex
                have := (copyConvWeights_spec d).1.mpr hex
                rw [hcw] at this
                exact absurd this (by simp)
            · intro _
              refine ⟨hunet, fun _ => ⟨d, hsd, ?_⟩⟩
              rw [← hcp]
              have := (copyConvWeights_spec d).2
              rw [hcw] at this
              exact this rfl

/-- Witness for `script_run_recompile_exactly_when`: switching from the
compiled checkpoint "other" to "model" with identical structure flags
and quantization off does not recompile; the single conv weight "k1" is
copied and the compiled unet is kept. -/
theorem script_run_recompile_exactly_when_witness :
    ((false : Bool) = true ↔
      ((some (ModelFlags.mk true false false false) : Option ModelFlags) ≠
          some (ModelFlags.mk true false false false) ∨
       ((false : Bool) = true ∧
        (some "other" : Option String) ≠ some ("model" ++ "_quantized")) ∨
       ((some "other" : Option String) ≠
          some (if (false : Bool) then "model" ++ "_quantized" else "model") ∧
        ∃ k, (k, (none : Option Nat)) ∈
          (some [("k1", some 3)] : Option (List (String × Option Nat))).getD []))) ∧
    ((false : Bool) = false →
      (some 0 : Option Nat) = some 0 ∧
      ((some "other" : Option String) ≠
          some (if (false : Bool) then "model" ++ "_quantized" else "model") →
        ∃ d, (some [("k1", some 3)] : Option (List (String × Option Nat))) = some d ∧
          ["k1"] = d.map Prod.fst)) :=
  script_run_recompile_exactly_when
    ⟨some (ModelFlags.mk true false false false), some [("k1", some 3)],
     some 0, some "other", 1⟩
    false "model" (ModelFlags.mk true false false false) (fun _ => [])
    ⟨some (ModelFlags.mk true false false false), some [("k1", some 3)],
     some 0, some "other", 1⟩
    false ["k1"] (by decide)
